import Mathlib

/-!
Shallow embedding of the hybrid retrieval engine in src/retriever.py
(tokenizer, document loading, BM25 ranking via rank_bm25.BM25Okapi,
argsort-based top-k selection, result fusion, retrieve/search orchestration)
together with the answer-generation guard of src/generator.py.

Floating-point scores are modelled over ℚ.  The BM25 idf table is computed
in the source with real-valued logarithms (math.log), so it is carried as an
abstract parameter `idf : String → ℚ`; every claim below is either
independent of the idf values or instantiated at queries whose token list is
empty, where the idf table is provably irrelevant.
-/

namespace Strateg

/-! ### Data model (documents.json records, src/retriever.py) -/

structure Document where
  id : ℕ
  text : String
  source : String := ""
  file : String := ""
  date : String := ""
deriving Repr, DecidableEq

def dummyDoc : Document := ⟨0, "", "", "", ""⟩

/-! ### Tokenizer (src/retriever.py, `tokenize`)

`tokenize` lower-cases, replaces every character outside the class
`[а-яa-z0-9ё\s]` by a space, and splits on whitespace.  Lower-casing is
modelled for the ASCII Latin and Cyrillic ranges the regex class mentions;
whitespace is modelled by `Char.isWhitespace`. -/

def toLowerRu (c : Char) : Char :=
  if 0x41 ≤ c.toNat ∧ c.toNat ≤ 0x5A then Char.ofNat (c.toNat + 0x20)
  else if 0x410 ≤ c.toNat ∧ c.toNat ≤ 0x42F then Char.ofNat (c.toNat + 0x20)
  else if c.toNat = 0x401 then Char.ofNat 0x451
  else c

/-- The non-whitespace part of the regex class `[а-яa-z0-9ё\s]`:
Cyrillic а-я, Latin a-z, digits, ё. -/
def tokenChar (c : Char) : Bool :=
  (0x430 ≤ c.toNat && c.toNat ≤ 0x44F) ||
  (0x61 ≤ c.toNat && c.toNat ≤ 0x7A) ||
  (0x30 ≤ c.toNat && c.toNat ≤ 0x39) ||
  (c.toNat == 0x451)

/-- `re.sub(r"[^а-яa-z0-9ё\s]", " ", text)` applied to one character. -/
def normChar (c : Char) : Char :=
  if tokenChar c || c.isWhitespace then c else ' '

/-- `str.split()` : split on whitespace runs, dropping empty pieces.
The first argument accumulates the current word reversed. -/
def splitWsAux : List Char → List Char → List (List Char)
  | cur, [] => if cur.isEmpty then [] else [cur.reverse]
  | cur, c :: rest =>
    if c.isWhitespace then
      if cur.isEmpty then splitWsAux [] rest
      else cur.reverse :: splitWsAux [] rest
    else splitWsAux (c :: cur) rest

def tokenize (s : String) : List String :=
  (splitWsAux [] (s.data.map (fun c => normChar (toLowerRu c)))).map
    (fun cs => String.mk cs)

/-! ### Corpus loading (src/retriever.py, `_load_documents`)

The json parse is abstracted: the input is the parsed record list.  The
source iterates `assert d["id"] == i` over the enumerated list; a violation
raises (modelled as `none`). -/

def checkIds : ℕ → List Document → Bool
  | _, [] => true
  | i, d :: rest => (d.id == i) && checkIds (i + 1) rest

def load_documents (docs : List Document) : Option (List Document) :=
  if checkIds 0 docs then some docs else none

/-! ### BM25 scoring (rank_bm25.BM25Okapi.get_scores, defaults k1=1.5, b=0.75) -/

def bmK1 : ℚ := 3 / 2
def bmB : ℚ := 3 / 4

/-- `BM25Okapi.get_scores`: for each document
`Σ_q idf(q) · f·(k1+1) / (f + k1·(1 − b + b·|d|/avgdl))` with `f` the count
of token `q` in the document. -/
def get_scores (idf : String → ℚ) (corpus : List (List String))
    (query : List String) : List ℚ :=
  let avgdl : ℚ := ((corpus.map (fun d => (d.length : ℚ))).sum) / (corpus.length : ℚ)
  corpus.map (fun doc =>
    (query.map (fun q =>
      idf q * ((doc.count q : ℚ) * (bmK1 + 1) /
        ((doc.count q : ℚ) + bmK1 * (1 - bmB + bmB * (doc.length : ℚ) / avgdl))))).sum)

/-! ### argsort-based top-k (src/retriever.py, `Retriever.search_bm25`)

`np.argsort(scores)[::-1][:top_k]`: ascending argsort (ties in ascending
index order) then reversal.  Modelled as the sort of the index range by the
total order (score, index) lexicographic, then reversed. -/

def scoreAt (scores : List ℚ) (i : ℕ) : ℚ := scores.getD i 0

def argLe (scores : List ℚ) (i j : ℕ) : Prop :=
  scoreAt scores i < scoreAt scores j ∨
    (scoreAt scores i = scoreAt scores j ∧ i ≤ j)

instance argLe.decidableRel (scores : List ℚ) : DecidableRel (argLe scores) :=
  fun i j =>
    inferInstanceAs (Decidable (scoreAt scores i < scoreAt scores j ∨
      (scoreAt scores i = scoreAt scores j ∧ i ≤ j)))

instance argLe.isTotal (scores : List ℚ) : IsTotal ℕ (argLe scores) := by
  constructor
  intro i j
  rcases lt_trichotomy (scoreAt scores i) (scoreAt scores j) with h | h | h
  · exact Or.inl (Or.inl h)
  · rcases Nat.le_total i j with hij | hij
    · exact Or.inl (Or.inr ⟨h, hij⟩)
    · exact Or.inr (Or.inr ⟨h.symm, hij⟩)
  · exact Or.inr (Or.inl h)

instance argLe.isTrans (scores : List ℚ) : IsTrans ℕ (argLe scores) := by
  constructor
  intro i j k hij hjk
  rcases hij with h1 | ⟨h1, h1'⟩
  · rcases hjk with h2 | ⟨h2, _⟩
    · exact Or.inl (lt_trans h1 h2)
    · exact Or.inl (h2 ▸ h1)
  · rcases hjk with h2 | ⟨h2, h2'⟩
    · exact Or.inl (h1 ▸ h2)
    · exact Or.inr ⟨h1.trans h2, h1'.trans h2'⟩

def argsortDesc (scores : List ℚ) : List ℕ :=
  (List.insertionSort (argLe scores) (List.range scores.length)).reverse

def search_bm25 (idf : String → ℚ) (corpus : List (List String))
    (query : String) (top_k : ℕ) : List (ℕ × ℚ) :=
  let scores := get_scores idf corpus (tokenize query)
  ((argsortDesc scores).take top_k).map (fun i => (i, scoreAt scores i))

/-! ### Result fusion (src/retriever.py, `Retriever.retrieve`, the
seen_ids/combined_docs_list block) -/

structure MergedDoc where
  doc : Document
  score : ℚ
  source : String
deriving Repr, DecidableEq

def mkMerged (docs : List Document) (idx : ℕ) (score : ℚ) (s : String) :
    MergedDoc :=
  ⟨docs.getD idx dummyDoc, score, s⟩

/-- First pass: walk the BM25 results; emit unseen ids with `_source="bm25"`. -/
def mergeBm25 (docs : List Document) :
    List (ℕ × ℚ) → List ℕ → List MergedDoc → List ℕ × List MergedDoc
  | [], seen, acc => (seen, acc)
  | (idx, score) :: rest, seen, acc =>
    if idx ∈ seen then mergeBm25 docs rest seen acc
    else mergeBm25 docs rest (idx :: seen) (acc ++ [mkMerged docs idx score "bm25"])

/-- The inner `for doc in combined_docs_list: if doc["id"] == idx: ...; break`
loop: flip the first entry whose document id matches to `_source="both"`. -/
def flipBoth (idx : ℕ) : List MergedDoc → List MergedDoc
  | [] => []
  | d :: rest =>
    if d.doc.id = idx then ⟨d.doc, d.score, "both"⟩ :: rest
    else d :: flipBoth idx rest

/-- Second pass: walk the vector results; emit unseen ids with
`_source="semantic"`, flip already-seen ids to `_source="both"`. -/
def mergeVec (docs : List Document) :
    List (ℕ × ℚ) → List ℕ → List MergedDoc → List ℕ × List MergedDoc
  | [], seen, acc => (seen, acc)
  | (idx, score) :: rest, seen, acc =>
    if idx ∈ seen then mergeVec docs rest seen (flipBoth idx acc)
    else mergeVec docs rest (idx :: seen) (acc ++ [mkMerged docs idx score "semantic"])

def mergeResults (docs : List Document) (b v : List (ℕ × ℚ)) : List MergedDoc :=
  let s1 := mergeBm25 docs b [] []
  (mergeVec docs v s1.1 s1.2).2

/-! ### Retrieve (src/retriever.py, `Retriever.retrieve`)

The embedding model and FAISS index are external collaborators; the semantic
search is carried as a fallible function parameter (`search_vector` has no
exception handler in the source, so its failure propagates).  The generation
call is guarded by try/except with `answer = None` on failure. -/

inductive EmbError | embedFail
deriving Repr, DecidableEq

structure RetrieveResult where
  bm25_results : List (ℕ × ℚ)
  vector_results : List (ℕ × ℚ)
  combined_docs : List MergedDoc
  answer : Option String
deriving Repr, DecidableEq

/-- `if generate_answer and combined_docs:` … `try: answer = generate(...)
except: answer = None`. -/
def retrieveAnswer (gen : String → List MergedDoc → Except String String)
    (query : String) (combined_docs : List MergedDoc)
    (generate_answer : Bool) : Option String :=
  if generate_answer && !combined_docs.isEmpty then
    match gen query combined_docs with
    | Except.ok a => some a
    | Except.error _ => none
  else none

/-- `bm25_results`: filled only when the mode includes BM25. -/
def bm25Of (idf : String → ℚ) (corpusTokens : List (List String))
    (query : String) (top_k : ℕ) (mode : String) : List (ℕ × ℚ) :=
  if mode = "bm25" ∨ mode = "both" then search_bm25 idf corpusTokens query top_k
  else []

def retrieve (docs : List Document) (idf : String → ℚ)
    (corpusTokens : List (List String))
    (vecSearch : String → ℕ → Except EmbError (List (ℕ × ℚ)))
    (gen : String → List MergedDoc → Except String String)
    (query : String) (top_k : ℕ) (mode : String) (generate_answer : Bool) :
    Except EmbError RetrieveResult :=
  match (if mode = "vector" ∨ mode = "both" then vecSearch query top_k
         else Except.ok []) with
  | Except.error e => Except.error e
  | Except.ok vector_results =>
    Except.ok ⟨bm25Of idf corpusTokens query top_k mode, vector_results,
      mergeResults docs (bm25Of idf corpusTokens query top_k mode) vector_results,
      retrieveAnswer gen query
        (mergeResults docs (bm25Of idf corpusTokens query top_k mode) vector_results)
        generate_answer⟩

/-! ### Engine state, construction, search, top sources
(src/retriever.py, `Retriever.__init__`, `Retriever.search`,
`Retriever.get_top_sources`) -/

structure SourceInfo where
  file : String
  source : String
  date : String
  score : ℚ
deriving Repr, DecidableEq

structure EngineState where
  docs : List Document
  corpusTokens : List (List String)
  ntotal : ℕ
  last_top_sources : List SourceInfo
deriving Repr, DecidableEq

/-- `Retriever.__init__`: load documents (id/position assert), tokenize the
corpus, load the FAISS index of size `ntotal`.  The source only prints
`ntotal`; it performs no comparison against the document count. -/
def initEngine (rawDocs : List Document) (ntotal : ℕ) : Option EngineState :=
  match load_documents rawDocs with
  | none => none
  | some docs => some ⟨docs, docs.map (fun d => tokenize d.text), ntotal, []⟩

def mkSourceInfo (docs : List Document) (p : ℕ × ℚ) : SourceInfo :=
  let d := docs.getD p.1 dummyDoc
  ⟨d.file, d.source, d.date, p.2⟩

/-- Top-3 BM25 sources followed by top-2 semantic sources. -/
def topSources (docs : List Document) (b v : List (ℕ × ℚ)) : List SourceInfo :=
  (b.take 3).map (mkSourceInfo docs) ++ (v.take 2).map (mkSourceInfo docs)

/-- Python `str.strip()`: drop leading and trailing whitespace. -/
def pyStrip (s : String) : String :=
  String.mk (((s.data.dropWhile Char.isWhitespace).reverse.dropWhile
    Char.isWhitespace).reverse)

/-- `primary_query.strip() if primary_query and primary_query.strip() else
query.strip()`. -/
def searchQueryOf (query : String) (primary_query : Option String) : String :=
  match primary_query with
  | some p => if pyStrip p ≠ "" then pyStrip p else pyStrip query
  | none => pyStrip query

/-- `Retriever.search`: retrieve with mode="both", no generation, then
overwrite `last_top_sources`. -/
def searchDocs (st : EngineState) (idf : String → ℚ)
    (vecSearch : String → ℕ → Except EmbError (List (ℕ × ℚ)))
    (gen : String → List MergedDoc → Except String String)
    (query : String) (top_k : ℕ) (primary_query : Option String) :
    Except EmbError (List MergedDoc × EngineState) :=
  match retrieve st.docs idf st.corpusTokens vecSearch gen
      (searchQueryOf query primary_query) top_k "both" false with
  | Except.error e => Except.error e
  | Except.ok r =>
    Except.ok (r.combined_docs,
      { st with last_top_sources := topSources st.docs r.bm25_results r.vector_results })

def get_top_sources (st : EngineState) : List SourceInfo :=
  st.last_top_sources

/-! ### Spec-side emission order (modelled from the spec's ResultFusion
description, §4.5: walk the lexical list then the semantic list in rank
order, emit each unseen doc_id; output order is emission order). -/

def emitNew : List ℕ → List ℕ → List ℕ
  | _, [] => []
  | seen, x :: rest =>
    if x ∈ seen then emitNew seen rest else x :: emitNew (x :: seen) rest

/-- The ids already seen after walking a ranked list (spec-side companion of
`emitNew`). -/
def threadSeen : List ℕ → List ℕ → List ℕ
  | seen, [] => seen
  | seen, x :: rest =>
    if x ∈ seen then threadSeen seen rest else threadSeen (x :: seen) rest

def mergedId (m : MergedDoc) : ℕ := m.doc.id

instance instDecEqExcept {ε α : Type _} [DecidableEq ε] [DecidableEq α] :
    DecidableEq (Except ε α) := fun a b =>
  match a, b with
  | Except.error e1, Except.error e2 => decidable_of_iff (e1 = e2) (by simp)
  | Except.error _, Except.ok _ => Decidable.isFalse (by simp)
  | Except.ok _, Except.error _ => Decidable.isFalse (by simp)
  | Except.ok a1, Except.ok a2 => decidable_of_iff (a1 = a2) (by simp)

/-! ### Concrete fixtures for witnesses -/

def docW0 : Document := ⟨0, "alpha", "s0", "f0", "2020"⟩
def docW1 : Document := ⟨1, "beta", "s1", "f1", "2021"⟩
def docsW : List Document := [docW0, docW1]
def ctW : List (List String) := docsW.map (fun d => tokenize d.text)
def idfW : String → ℚ := fun t => if t = "beta" then 1 else 0
def idf0 : String → ℚ := fun _ => 0
def vecOkW : String → ℕ → Except EmbError (List (ℕ × ℚ)) :=
  fun _ _ => Except.ok [(0, 1)]
def vecFailW : String → ℕ → Except EmbError (List (ℕ × ℚ)) :=
  fun _ _ => Except.error EmbError.embedFail
def genOkW : String → List MergedDoc → Except String String :=
  fun _ _ => Except.ok "ans"
def genFailW : String → List MergedDoc → Except String String :=
  fun _ _ => Except.error "boom"
def mdW1 : MergedDoc := ⟨docW1, 0, "bm25"⟩
def mdW0 : MergedDoc := ⟨docW0, 0, "both"⟩
def rGenW : RetrieveResult :=
  ⟨[(1, 0), (0, 0)], [(0, 1)], [mdW1, mdW0], some "ans"⟩
def rNoGenW : RetrieveResult :=
  ⟨[(1, 0), (0, 0)], [(0, 1)], [mdW1, mdW0], none⟩

/-! ### Helper lemmas -/

theorem checkIds_iff (docs : List Document) :
    ∀ k, checkIds k docs = true ↔
      ∀ i, i < docs.length → (docs.getD i dummyDoc).id = k + i := by
  induction docs with
  | nil => intro k; simp [checkIds]
  | cons d rest ih =>
    intro k
    show ((d.id == k) && checkIds (k + 1) rest) = true ↔ _
    simp only [Bool.and_eq_true, beq_iff_eq]
    constructor
    · rintro ⟨h0, h1⟩ i hi
      cases i with
      | zero => simpa using h0
      | succ n =>
        have hn : n < rest.length := by simpa using hi
        have hrec := (ih (k + 1)).mp h1 n hn
        simp only [List.getD_cons_succ]
        rw [hrec]; omega
    · intro h
      refine ⟨by simpa using h 0 (by simp), (ih (k + 1)).mpr ?_⟩
      intro n hn
      have hh := h (n + 1) (by simpa using Nat.succ_lt_succ hn)
      simp only [List.getD_cons_succ] at hh
      rw [hh]; omega

theorem load_documents_isSome_iff (docs : List Document) :
    (load_documents docs).isSome ↔ checkIds 0 docs = true := by
  unfold load_documents
  by_cases h : checkIds 0 docs = true <;> simp [h]

theorem retrieve_ok_iff (docs : List Document) (idf : String → ℚ)
    (ct : List (List String))
    (vecSearch : String → ℕ → Except EmbError (List (ℕ × ℚ)))
    (gen : String → List MergedDoc → Except String String)
    (q : String) (k : ℕ) (mode : String) (g : Bool) (r : RetrieveResult) :
    retrieve docs idf ct vecSearch gen q k mode g = Except.ok r ↔
      ∃ v, (if mode = "vector" ∨ mode = "both" then vecSearch q k
            else Except.ok []) = Except.ok v ∧
        r = ⟨bm25Of idf ct q k mode, v,
          mergeResults docs (bm25Of idf ct q k mode) v,
          retrieveAnswer gen q (mergeResults docs (bm25Of idf ct q k mode) v) g⟩ := by
  unfold retrieve
  cases hv : (if mode = "vector" ∨ mode = "both" then vecSearch q k
              else Except.ok []) with
  | error e => simp
  | ok v => simp [eq_comm]

theorem retrieveAnswer_of_ne_nil (gen : String → List MergedDoc → Except String String)
    (q : String) (c : List MergedDoc) (hc : c ≠ []) :
    retrieveAnswer gen q c true = (gen q c).toOption := by
  unfold retrieveAnswer
  have hne : c.isEmpty = false := by
    cases c with
    | nil => exact absurd rfl hc
    | cons a l => rfl
  rw [hne]
  cases gen q c <;> rfl

theorem retrieveAnswer_nil (gen : String → List MergedDoc → Except String String)
    (q : String) (g : Bool) : retrieveAnswer gen q [] g = none := by
  unfold retrieveAnswer
  cases g <;> rfl

/-! ### Claims -/

/-- C7: loading the corpus validates id == position for every entry and
fails (returns none, modelling the assertion error) on any violation;
hence every document of a successfully loaded store has id equal to its
position. -/
theorem c7_load_validates_ids (docs : List Document) :
    ((load_documents docs).isSome ↔
      ∀ i, i < docs.length → (docs.getD i dummyDoc).id = i) ∧
    (∀ s, load_documents docs = some s →
      ∀ i, i < s.length → (s.getD i dummyDoc).id = i) := by
  have hck := checkIds_iff docs 0
  simp only [Nat.zero_add] at hck
  refine ⟨(load_documents_isSome_iff docs).trans hck, ?_⟩
  intro s hs
  have heq : s = docs := by
    unfold load_documents at hs
    by_cases h : checkIds 0 docs = true
    · simp [h] at hs; exact hs.symm
    · simp [h] at hs
  subst heq
  have hsome : (load_documents s).isSome := by rw [hs]; rfl
  exact hck.mp ((load_documents_isSome_iff s).mp hsome)

theorem c7_witness :
    (load_documents docsW).isSome ∧
      ∀ i, i < docsW.length → (docsW.getD i dummyDoc).id = i :=
  ⟨(c7_load_validates_ids docsW).1.mpr (by decide), by decide⟩

/-- C4 counterexample: engine construction succeeds on a corpus of two
documents paired with a vector index holding zero vectors — no
vector-count/document-count equality check is performed. -/
theorem c4_counterexample :
    (initEngine docsW 0).isSome = true ∧ docsW.length = 2 := by
  exact ⟨rfl, rfl⟩

/-- C4 amended: engine construction performs no check that the vector count
equals the document count; it succeeds if and only if the id == position
load check passes, for every vector count. -/
theorem c4_amended (rawDocs : List Document) (ntotal : ℕ) :
    (initEngine rawDocs ntotal).isSome ↔ (load_documents rawDocs).isSome := by
  unfold initEngine
  cases load_documents rawDocs <;> simp

theorem c4_witness : (initEngine docsW 7).isSome :=
  (c4_amended docsW 7).mpr (by decide)

/-- C5 counterexample: with mode "both", a failing embedding call makes
retrieve return the error itself; the lexical results are not returned. -/
theorem c5_counterexample :
    retrieve docsW idfW ctW vecFailW genOkW "beta" 5 "both" true =
      Except.error EmbError.embedFail := by
  rfl

/-- C5 amended: when the embedding call fails at query time and the mode
includes semantic search, retrieve propagates the failure to the caller
instead of returning the lexical results. -/
theorem c5_amended (docs : List Document) (idf : String → ℚ)
    (ct : List (List String))
    (gen : String → List MergedDoc → Except String String)
    (query : String) (top_k : ℕ) (mode : String) (g : Bool) (e : EmbError)
    (hmode : mode = "vector" ∨ mode = "both") :
    retrieve docs idf ct (fun _ _ => Except.error e) gen query top_k mode g =
      Except.error e := by
  unfold retrieve
  rw [if_pos hmode]

theorem c5_witness :
    retrieve docsW idfW ctW (fun _ _ => Except.error EmbError.embedFail) genOkW
      "q" 3 "vector" false = Except.error EmbError.embedFail :=
  c5_amended docsW idfW ctW genOkW "q" 3 "vector" false EmbError.embedFail
    (Or.inl rfl)

/-- C6: with generate=true, a non-empty merged list makes retrieve attach
the Summarize collaborator's successful output as the answer, while an
empty merged list yields the fixed nothing-found signal (answer = none)
and the result does not depend on the collaborator at all (it is never
invoked). -/
theorem c6_generation_policy (docs : List Document) (idf : String → ℚ)
    (ct : List (List String))
    (vecSearch : String → ℕ → Except EmbError (List (ℕ × ℚ)))
    (gen : String → List MergedDoc → Except String String)
    (q : String) (k : ℕ) (mode : String) (r : RetrieveResult)
    (h : retrieve docs idf ct vecSearch gen q k mode true = Except.ok r) :
    (r.combined_docs ≠ [] → r.answer = (gen q r.combined_docs).toOption) ∧
    (r.combined_docs = [] → r.answer = none ∧
      ∀ gen2, retrieve docs idf ct vecSearch gen2 q k mode true = Except.ok r) := by
  rcases (retrieve_ok_iff docs idf ct vecSearch gen q k mode true r).mp h with
    ⟨v, hv, hr⟩
  subst hr
  constructor
  · intro hne
    exact retrieveAnswer_of_ne_nil gen q _ hne
  · intro hemp
    simp only at hemp
    refine ⟨by simp only [hemp, retrieveAnswer_nil], ?_⟩
    intro gen2
    refine (retrieve_ok_iff docs idf ct vecSearch gen2 q k mode true _).mpr
      ⟨v, hv, ?_⟩
    simp only [hemp, retrieveAnswer_nil]

theorem c6_witness : rGenW.answer = (genOkW "??" rGenW.combined_docs).toOption := by
  have h := c6_generation_policy docsW idf0 ctW vecOkW genOkW "??" 5 "both"
    rGenW (by decide)
  exact h.1 (by decide)

/-- C10: if the generation call fails, retrieve catches the error: the
result equals the generate=false result (same lexical, semantic and merged
lists) with answer = none, and no error is propagated. -/
theorem c10_generation_error_caught (docs : List Document) (idf : String → ℚ)
    (ct : List (List String))
    (vecSearch : String → ℕ → Except EmbError (List (ℕ × ℚ)))
    (gen : String → List MergedDoc → Except String String)
    (q : String) (k : ℕ) (mode : String) (r : RetrieveResult) (e : String)
    (h : retrieve docs idf ct vecSearch gen q k mode false = Except.ok r)
    (hgen : gen q r.combined_docs = Except.error e) :
    retrieve docs idf ct vecSearch gen q k mode true = Except.ok r ∧
      r.answer = none := by
  rcases (retrieve_ok_iff docs idf ct vecSearch gen q k mode false r).mp h with
    ⟨v, hv, hr⟩
  subst hr
  simp only at hgen
  constructor
  · refine (retrieve_ok_iff docs idf ct vecSearch gen q k mode true _).mpr
      ⟨v, hv, ?_⟩
    have ha : retrieveAnswer gen q
        (mergeResults docs (bm25Of idf ct q k mode) v) true = none := by
      unfold retrieveAnswer
      cases hme : (mergeResults docs (bm25Of idf ct q k mode) v).isEmpty with
      | true => rfl
      | false => simp [hgen]
    rw [ha]
    have hb : retrieveAnswer gen q
        (mergeResults docs (bm25Of idf ct q k mode) v) false = none := rfl
    rw [hb]
  · rfl

theorem c10_witness :
    retrieve docsW idf0 ctW vecOkW genFailW "??" 5 "both" true =
      Except.ok rNoGenW :=
  (c10_generation_error_caught docsW idf0 ctW vecOkW genFailW "??" 5 "both"
    rNoGenW "boom" (by decide) (by decide)).1

/-! ### Search / top-sources lemmas and claims -/

theorem searchDocs_ok_iff (st : EngineState) (idf : String → ℚ)
    (vecSearch : String → ℕ → Except EmbError (List (ℕ × ℚ)))
    (gen : String → List MergedDoc → Except String String)
    (q : String) (k : ℕ) (pq : Option String)
    (out : List MergedDoc) (st2 : EngineState) :
    searchDocs st idf vecSearch gen q k pq = Except.ok (out, st2) ↔
      ∃ r, retrieve st.docs idf st.corpusTokens vecSearch gen
          (searchQueryOf q pq) k "both" false = Except.ok r ∧
        out = r.combined_docs ∧
        st2 = { st with
          last_top_sources := topSources st.docs r.bm25_results r.vector_results } := by
  unfold searchDocs
  cases hr : retrieve st.docs idf st.corpusTokens vecSearch gen
      (searchQueryOf q pq) k "both" false with
  | error e => simp
  | ok r =>
    simp only [Except.ok.injEq, Prod.mk.injEq]
    constructor
    · rintro ⟨h1, h2⟩
      exact ⟨r, rfl, h1.symm, h2.symm⟩
    · rintro ⟨r2, rfl, hout, hst⟩
      exact ⟨hout.symm, hst.symm⟩

/-- C9: after a completed Search call, the stored top-sources snapshot is
exactly the at-most-3 records built from the head of that call's own BM25
result list followed by the at-most-2 records built from the head of that
call's own vector result list — hence at most five records with at most 3
lexical-origin and at most 2 semantic-origin — and the snapshot and the
returned documents are independent of whatever snapshot was stored before
(the slot is overwritten on every Search). -/
theorem c9_top_sources (st : EngineState) (idf : String → ℚ)
    (vecSearch : String → ℕ → Except EmbError (List (ℕ × ℚ)))
    (gen : String → List MergedDoc → Except String String)
    (q : String) (k : ℕ) (pq : Option String)
    (out : List MergedDoc) (st2 : EngineState)
    (h : searchDocs st idf vecSearch gen q k pq = Except.ok (out, st2)) :
    (get_top_sources st2).length ≤ 5 ∧
    (∃ r : RetrieveResult,
      retrieve st.docs idf st.corpusTokens vecSearch gen
        (searchQueryOf q pq) k "both" false = Except.ok r ∧
      out = r.combined_docs ∧
      get_top_sources st2 =
        (r.bm25_results.take 3).map (mkSourceInfo st.docs) ++
          (r.vector_results.take 2).map (mkSourceInfo st.docs) ∧
      ((r.bm25_results.take 3).map (mkSourceInfo st.docs)).length ≤ 3 ∧
      ((r.vector_results.take 2).map (mkSourceInfo st.docs)).length ≤ 2) ∧
    (∀ ts0 out0 st0,
      searchDocs { st with last_top_sources := ts0 } idf vecSearch gen q k pq =
        Except.ok (out0, st0) →
      out0 = out ∧ get_top_sources st0 = get_top_sources st2) := by
  rcases (searchDocs_ok_iff st idf vecSearch gen q k pq out st2).mp h with
    ⟨r, hr, hout, hst⟩
  subst hout; subst hst
  have hts : get_top_sources
      { st with last_top_sources := topSources st.docs r.bm25_results r.vector_results } =
      (r.bm25_results.take 3).map (mkSourceInfo st.docs) ++
        (r.vector_results.take 2).map (mkSourceInfo st.docs) := rfl
  refine ⟨?_, ?_, ?_⟩
  · rw [hts]
    rw [List.length_append, List.length_map, List.length_map,
      List.length_take, List.length_take]
    omega
  · refine ⟨r, hr, rfl, hts, ?_, ?_⟩
    · rw [List.length_map, List.length_take]; omega
    · rw [List.length_map, List.length_take]; omega
  · intro ts0 out0 st0 h0
    rcases (searchDocs_ok_iff { st with last_top_sources := ts0 } idf vecSearch
        gen q k pq out0 st0).mp h0 with ⟨r0, hr0, hout0, hst0⟩
    have hsame : r0 = r := by
      have : retrieve st.docs idf st.corpusTokens vecSearch gen
          (searchQueryOf q pq) k "both" false = Except.ok r0 := hr0
      rw [hr] at this
      exact (Except.ok.injEq _ _ ▸ this).symm
    subst hsame
    exact ⟨hout0, by rw [hst0]⟩

theorem c9_witness :
    (get_top_sources ⟨docsW, ctW, 2,
      [⟨"f1", "s1", "2021", 0⟩, ⟨"f0", "s0", "2020", 0⟩,
       ⟨"f0", "s0", "2020", 1⟩]⟩).length ≤ 5 :=
  (c9_top_sources ⟨docsW, ctW, 2, []⟩ idf0 vecOkW genOkW "??" 5 none
    [mdW1, mdW0] ⟨docsW, ctW, 2,
      [⟨"f1", "s1", "2021", 0⟩, ⟨"f0", "s0", "2020", 0⟩,
       ⟨"f0", "s0", "2020", 1⟩]⟩ (by decide)).1

/-! ### BM25 ordering lemmas and claims -/

theorem get_scores_length (idf : String → ℚ) (corpus : List (List String))
    (query : List String) : (get_scores idf corpus query).length = corpus.length := by
  unfold get_scores
  rw [List.length_map]

theorem search_bm25_eq (idf : String → ℚ) (corpus : List (List String))
    (query : String) (k : ℕ) :
    search_bm25 idf corpus query k =
      ((argsortDesc (get_scores idf corpus (tokenize query))).take k).map
        (fun i => (i, scoreAt (get_scores idf corpus (tokenize query)) i)) := rfl

/-- numpy's documented guarantee for `np.argsort(scores)`: some permutation
of the index range along which the scores are non-decreasing.  The default
kind (quicksort/introsort) is not stable, so which permutation is produced
on tied scores is unspecified; any argsort output satisfies this predicate
and nothing stronger is guaranteed. -/
def isAscSortOf (scores : List ℚ) (asc : List ℕ) : Prop :=
  asc.Perm (List.range scores.length) ∧
  asc.Pairwise (fun i j => scoreAt scores i ≤ scoreAt scores j)

/-- `Retriever.search_bm25` with the argsort output abstracted:
`np.argsort(scores)[::-1][:top_k]` then the score lookup. -/
def search_bm25_with (scores : List ℚ) (asc : List ℕ) (top_k : ℕ) :
    List (ℕ × ℚ) :=
  ((asc.reverse).take top_k).map (fun i => (i, scoreAt scores i))

/-- The concrete model `search_bm25` is one instance of the abstract form:
its stable ascending argsort satisfies `isAscSortOf`. -/
theorem search_bm25_instance (idf : String → ℚ) (corpus : List (List String))
    (query : String) (k : ℕ) :
    isAscSortOf (get_scores idf corpus (tokenize query))
      (List.insertionSort (argLe (get_scores idf corpus (tokenize query)))
        (List.range (get_scores idf corpus (tokenize query)).length)) ∧
    search_bm25 idf corpus query k =
      search_bm25_with (get_scores idf corpus (tokenize query))
        (List.insertionSort (argLe (get_scores idf corpus (tokenize query)))
          (List.range (get_scores idf corpus (tokenize query)).length)) k := by
  refine ⟨⟨List.perm_insertionSort _ _, ?_⟩, rfl⟩
  refine (List.sorted_insertionSort (argLe _) _).imp ?_
  intro i j hij
  rcases hij with hlt | ⟨heq, _⟩
  · exact le_of_lt hlt
  · exact le_of_eq heq

/-- C2 amended: for every tie order the (unstable) ascending argsort may
produce, the BM25 query returns at most top_k results ordered by
non-increasing score, and top_k at least the corpus size yields a ranking
of the whole corpus.  The ascending-doc_id tie-break of the original claim
does not hold: no universal tie order is guaranteed (numpy's default
quicksort is not stable), and on a concrete two-document tie the code puts
the larger doc_id first. -/
theorem c2_amended (idf : String → ℚ) (corpus : List (List String))
    (query : String) (k : ℕ) (asc : List ℕ)
    (hasc : isAscSortOf (get_scores idf corpus (tokenize query)) asc) :
    (search_bm25_with (get_scores idf corpus (tokenize query)) asc k).length ≤ k ∧
    (search_bm25_with (get_scores idf corpus (tokenize query)) asc k).Pairwise
      (fun a b => b.2 ≤ a.2) ∧
    (corpus.length ≤ k →
      ((search_bm25_with (get_scores idf corpus (tokenize query)) asc k).map
        Prod.fst).Perm (List.range corpus.length)) := by
  set scores := get_scores idf corpus (tokenize query) with hsc
  have hlen : scores.length = corpus.length := get_scores_length _ _ _
  rcases hasc with ⟨hperm, hsorted⟩
  unfold search_bm25_with
  refine ⟨?_, ?_, ?_⟩
  · rw [List.length_map, List.length_take]
    exact min_le_left _ _
  · have h1 : asc.reverse.Pairwise
        (fun i j => scoreAt scores j ≤ scoreAt scores i) :=
      List.pairwise_reverse.mpr hsorted
    have h2 : (asc.reverse.take k).Pairwise
        (fun i j => scoreAt scores j ≤ scoreAt scores i) :=
      h1.sublist (List.take_sublist _ _)
    exact h2.map (fun i => (i, scoreAt scores i)) (fun i j hij => hij)
  · intro hk
    have hlenasc : asc.reverse.length = corpus.length := by
      rw [List.length_reverse, hperm.length_eq, List.length_range, hlen]
    have hfull : asc.reverse.take k = asc.reverse :=
      List.take_of_length_le (by rw [hlenasc]; exact hk)
    rw [hfull, List.map_map]
    have hid : (Prod.fst ∘ fun i => (i, scoreAt scores i)) = id := rfl
    rw [hid, List.map_id]
    exact (List.reverse_perm asc).trans (hlen ▸ hperm)

/-- C2 counterexample: with two equally scored documents (empty-token
query, so both BM25 scores are 0), the result lists doc 1 before doc 0 —
at n=2 the argsort is in numpy's deterministic insertion-sort regime, and
the reversal puts the larger doc_id first, refuting the ascending tie
order. -/
theorem c2_counterexample :
    search_bm25 idf0 [["a"], ["b"]] "" 5 = [(1, 0), (0, 0)] := by decide

theorem c2_witness :
    ((search_bm25_with (get_scores idf0 [["a"], ["b"]] (tokenize "?"))
      [0, 1] 3).map Prod.fst).Perm (List.range 2) :=
  (c2_amended idf0 [["a"], ["b"]] "?" 3 [0, 1] (by exact ⟨by decide, by decide⟩)).2.2
    (by decide)

/-! ### Tokenizer edge-case lemmas and claims -/

theorem splitWsAux_all_ws (l : List Char)
    (h : ∀ c ∈ l, c.isWhitespace = true) : splitWsAux [] l = [] := by
  induction l with
  | nil => rfl
  | cons c rest ih =>
    have hc : c.isWhitespace = true := h c (by simp)
    show splitWsAux [] (c :: rest) = []
    unfold splitWsAux
    rw [hc]
    simp only [List.isEmpty_nil, if_true]
    exact ih (fun c2 hc2 => h c2 (List.mem_cons_of_mem _ hc2))

theorem normChar_isWs (c : Char) (h : tokenChar (toLowerRu c) = false) :
    (normChar (toLowerRu c)).isWhitespace = true := by
  unfold normChar
  rw [h]
  simp only [Bool.false_or]
  cases hw : (toLowerRu c).isWhitespace with
  | true => simp [hw]
  | false => simp [hw]

theorem getD_map_zero (l : List (List String)) (i : ℕ) :
    (l.map (fun _ => (0 : ℚ))).getD i 0 = 0 := by
  induction l generalizing i with
  | nil => rfl
  | cons x rest ih =>
    cases i with
    | zero => rfl
    | succ n => exact ih n

/-- C8 amended: an input whose characters all fall outside the
letter/digit class tokenizes to the empty sequence, and the BM25 ranking
handles such a query without error, scoring every document 0 (so every
returned entry carries score 0 — the ranking still returns up to top_k
zero-scored entries rather than an empty list). -/
theorem c8_amended (s : String)
    (h : ∀ c ∈ s.data, tokenChar (toLowerRu c) = false) :
    tokenize s = [] ∧
      ∀ idf corpus k, ∀ p ∈ search_bm25 idf corpus s k, p.2 = (0 : ℚ) := by
  have htok : tokenize s = [] := by
    unfold tokenize
    have hsplit : splitWsAux [] (s.data.map (fun c => normChar (toLowerRu c))) = [] := by
      apply splitWsAux_all_ws
      intro c hc
      rcases List.mem_map.mp hc with ⟨c0, hc0, hc0e⟩
      rw [← hc0e]
      exact normChar_isWs c0 (h c0 hc0)
    rw [hsplit]
    rfl
  refine ⟨htok, ?_⟩
  intro idf corpus k p hp
  rw [search_bm25_eq, htok] at hp
  have hsc : get_scores idf corpus [] = corpus.map (fun _ => (0 : ℚ)) := by
    unfold get_scores
    simp
  rw [hsc] at hp
  rcases List.mem_map.mp hp with ⟨i, _, hie⟩
  rw [← hie]
  exact getD_map_zero corpus i

/-- C8 counterexample: an all-punctuation query tokenizes to the empty
sequence, yet the lexical ranking returns the whole (truncated) corpus at
score 0 instead of returning no documents. -/
theorem c8_counterexample :
    tokenize "!!!" = [] ∧
      search_bm25 idf0 [["c"], ["d"]] "!!!" 5 = [(1, 0), (0, 0)] := by decide

theorem c8_witness :
    tokenize " .," = [] ∧
      ∀ p ∈ search_bm25 idf0 [["c"], ["d"]] " .," 2, p.2 = (0 : ℚ) := by
  have h := c8_amended " .," (by decide)
  exact ⟨h.1, fun p hp => h.2 idf0 [["c"], ["d"]] 2 p hp⟩

/-! ### Fusion lemmas: emission order, dedup, provenance -/

theorem emitNew_mem (l : List ℕ) :
    ∀ (seen : List ℕ) (j : ℕ), j ∈ emitNew seen l ↔ j ∈ l ∧ j ∉ seen := by
  induction l with
  | nil => intro seen j; simp [emitNew]
  | cons x rest ih =>
    intro seen j
    show j ∈ (if x ∈ seen then emitNew seen rest
              else x :: emitNew (x :: seen) rest) ↔ _
    by_cases hx : x ∈ seen
    · rw [if_pos hx, ih]
      simp only [List.mem_cons]
      constructor
      · rintro ⟨hj, hns⟩
        exact ⟨Or.inr hj, hns⟩
      · rintro ⟨hj | hj, hns⟩
        · exact absurd (hj ▸ hx) hns
        · exact ⟨hj, hns⟩
    · rw [if_neg hx]
      constructor
      · intro hmem
        rcases List.mem_cons.mp hmem with rfl | hmem2
        · exact ⟨List.mem_cons_self _ _, hx⟩
        · rcases (ih (x :: seen) j).mp hmem2 with ⟨hj, hns⟩
          exact ⟨List.mem_cons_of_mem _ hj,
            fun hs => hns (List.mem_cons_of_mem _ hs)⟩
      · rintro ⟨hj, hns⟩
        rcases List.mem_cons.mp hj with rfl | hj2
        · exact List.mem_cons_self _ _
        · by_cases hjx : j = x
          · exact hjx ▸ List.mem_cons_self _ _
          · refine List.mem_cons_of_mem _ ((ih (x :: seen) j).mpr ⟨hj2, ?_⟩)
            intro hc
            rcases List.mem_cons.mp hc with h | h
            · exact hjx h
            · exact hns h

theorem emitNew_nodup (l : List ℕ) : ∀ seen, (emitNew seen l).Nodup := by
  induction l with
  | nil => intro seen; exact List.nodup_nil
  | cons x rest ih =>
    intro seen
    show (if x ∈ seen then emitNew seen rest
          else x :: emitNew (x :: seen) rest).Nodup
    by_cases hx : x ∈ seen
    · rw [if_pos hx]; exact ih seen
    · rw [if_neg hx]
      refine List.nodup_cons.mpr ⟨?_, ih (x :: seen)⟩
      intro hmem
      exact ((emitNew_mem rest (x :: seen) x).mp hmem).2 (List.mem_cons_self x seen)

theorem emitNew_congr (l : List ℕ) :
    ∀ s1 s2, (∀ j, j ∈ s1 ↔ j ∈ s2) → emitNew s1 l = emitNew s2 l := by
  induction l with
  | nil => intro s1 s2 _; rfl
  | cons x rest ih =>
    intro s1 s2 hiff
    show (if x ∈ s1 then emitNew s1 rest else x :: emitNew (x :: s1) rest) =
         (if x ∈ s2 then emitNew s2 rest else x :: emitNew (x :: s2) rest)
    by_cases hx : x ∈ s1
    · rw [if_pos hx, if_pos ((hiff x).mp hx)]
      exact ih s1 s2 hiff
    · rw [if_neg hx, if_neg (fun h2 => hx ((hiff x).mpr h2))]
      rw [ih (x :: s1) (x :: s2) ?_]
      intro j
      simp only [List.mem_cons]
      exact or_congr Iff.rfl (hiff j)

theorem threadSeen_mem (xs : List ℕ) :
    ∀ seen j, j ∈ threadSeen seen xs ↔ j ∈ seen ∨ j ∈ xs := by
  induction xs with
  | nil => intro seen j; simp [threadSeen]
  | cons x rest ih =>
    intro seen j
    show j ∈ (if x ∈ seen then threadSeen seen rest
              else threadSeen (x :: seen) rest) ↔ _
    by_cases hx : x ∈ seen
    · rw [if_pos hx, ih]
      simp only [List.mem_cons]
      constructor
      · rintro (hs | hr)
        · exact Or.inl hs
        · exact Or.inr (Or.inr hr)
      · rintro (hs | rfl | hr)
        · exact Or.inl hs
        · exact Or.inl hx
        · exact Or.inr hr
    · rw [if_neg hx, ih]
      simp only [List.mem_cons]
      tauto

theorem emitNew_append (xs : List ℕ) : ∀ (ys seen : List ℕ),
    emitNew seen (xs ++ ys) =
      emitNew seen xs ++ emitNew (threadSeen seen xs) ys := by
  induction xs with
  | nil => intro ys seen; rfl
  | cons x rest ih =>
    intro ys seen
    show (if x ∈ seen then emitNew seen (rest ++ ys)
          else x :: emitNew (x :: seen) (rest ++ ys)) =
      (if x ∈ seen then emitNew seen rest
       else x :: emitNew (x :: seen) rest) ++
      emitNew (if x ∈ seen then threadSeen seen rest
               else threadSeen (x :: seen) rest) ys
    by_cases hx : x ∈ seen
    · rw [if_pos hx, if_pos hx, if_pos hx]
      exact ih ys seen
    · rw [if_neg hx, if_neg hx, if_neg hx]
      rw [List.cons_append, ih ys (x :: seen)]

theorem mergeBm25_spec (docs : List Document)
    (hids : ∀ i, i < docs.length → (docs.getD i dummyDoc).id = i) :
    ∀ (b : List (ℕ × ℚ)) (seen : List ℕ) (acc : List MergedDoc),
      (∀ p ∈ b, p.1 < docs.length) →
      ((mergeBm25 docs b seen acc).2.map mergedId =
        acc.map mergedId ++ emitNew seen (b.map Prod.fst)) ∧
      (∀ j, j ∈ (mergeBm25 docs b seen acc).1 ↔
        j ∈ seen ∨ j ∈ b.map Prod.fst) := by
  intro b
  induction b with
  | nil =>
    intro seen acc _
    refine ⟨by simp [mergeBm25, emitNew], ?_⟩
    intro j
    simp [mergeBm25]
  | cons p rest ih =>
    rcases p with ⟨idx, score⟩
    intro seen acc hb
    have hidx : idx < docs.length := hb (idx, score) (by simp)
    have hrest : ∀ q ∈ rest, q.1 < docs.length :=
      fun q hq => hb q (List.mem_cons_of_mem _ hq)
    have hmc : ((idx, score) :: rest).map Prod.fst = idx :: rest.map Prod.fst := rfl
    simp only [mergeBm25]
    rw [hmc]
    by_cases hx : idx ∈ seen
    · rw [if_pos hx]
      have he : emitNew seen (idx :: rest.map Prod.fst) =
          emitNew seen (rest.map Prod.fst) := by
        show (if idx ∈ seen then _ else _) = _
        rw [if_pos hx]
      rcases ih seen acc hrest with ⟨h1, h2⟩
      refine ⟨by rw [h1, he], ?_⟩
      intro j
      rw [h2 j]
      simp only [List.mem_cons]
      constructor
      · rintro (hs | hr)
        · exact Or.inl hs
        · exact Or.inr (Or.inr hr)
      · rintro (hs | rfl | hr)
        · exact Or.inl hs
        · exact Or.inl hx
        · exact Or.inr hr
    · rw [if_neg hx]
      rcases ih (idx :: seen) (acc ++ [mkMerged docs idx score "bm25"]) hrest with
        ⟨h1, h2⟩
      have he : emitNew seen (idx :: rest.map Prod.fst) =
          idx :: emitNew (idx :: seen) (rest.map Prod.fst) := by
        show (if idx ∈ seen then _ else _) = _
        rw [if_neg hx]
      have hmk : mergedId (mkMerged docs idx score "bm25") = idx := hids idx hidx
      refine ⟨?_, ?_⟩
      · rw [h1, he, List.map_append]
        have hsing : List.map mergedId [mkMerged docs idx score "bm25"] = [idx] := by
          simp [hmk]
        rw [hsing, List.append_assoc, List.singleton_append]
      · intro j
        rw [h2 j]
        simp only [List.mem_cons]
        tauto

theorem flipBoth_map_id (idx : ℕ) :
    ∀ l : List MergedDoc, (flipBoth idx l).map mergedId = l.map mergedId := by
  intro l
  induction l with
  | nil => rfl
  | cons d rest ih =>
    simp only [flipBoth]
    by_cases hd : d.doc.id = idx
    · rw [if_pos hd]
      simp [mergedId]
    · rw [if_neg hd]
      simp [mergedId, ih]

theorem mergeVec_spec (docs : List Document)
    (hids : ∀ i, i < docs.length → (docs.getD i dummyDoc).id = i) :
    ∀ (v : List (ℕ × ℚ)) (seen : List ℕ) (acc : List MergedDoc),
      (∀ p ∈ v, p.1 < docs.length) →
      ((mergeVec docs v seen acc).2.map mergedId =
        acc.map mergedId ++ emitNew seen (v.map Prod.fst)) ∧
      (∀ j, j ∈ (mergeVec docs v seen acc).1 ↔
        j ∈ seen ∨ j ∈ v.map Prod.fst) := by
  intro v
  induction v with
  | nil =>
    intro seen acc _
    refine ⟨by simp [mergeVec, emitNew], ?_⟩
    intro j
    simp [mergeVec]
  | cons p rest ih =>
    rcases p with ⟨idx, score⟩
    intro seen acc hv
    have hidx : idx < docs.length := hv (idx, score) (by simp)
    have hrest : ∀ q ∈ rest, q.1 < docs.length :=
      fun q hq => hv q (List.mem_cons_of_mem _ hq)
    have hmc : ((idx, score) :: rest).map Prod.fst = idx :: rest.map Prod.fst := rfl
    simp only [mergeVec]
    rw [hmc]
    by_cases hx : idx ∈ seen
    · rw [if_pos hx]
      have he : emitNew seen (idx :: rest.map Prod.fst) =
          emitNew seen (rest.map Prod.fst) := by
        show (if idx ∈ seen then _ else _) = _
        rw [if_pos hx]
      rcases ih seen (flipBoth idx acc) hrest with ⟨h1, h2⟩
      refine ⟨by rw [h1, he, flipBoth_map_id], ?_⟩
      intro j
      rw [h2 j]
      simp only [List.mem_cons]
      constructor
      · rintro (hs | hr)
        · exact Or.inl hs
        · exact Or.inr (Or.inr hr)
      · rintro (hs | rfl | hr)
        · exact Or.inl hs
        · exact Or.inl hx
        · exact Or.inr hr
    · rw [if_neg hx]
      rcases ih (idx :: seen) (acc ++ [mkMerged docs idx score "semantic"]) hrest
        with ⟨h1, h2⟩
      have he : emitNew seen (idx :: rest.map Prod.fst) =
          idx :: emitNew (idx :: seen) (rest.map Prod.fst) := by
        show (if idx ∈ seen then _ else _) = _
        rw [if_neg hx]
      have hmk : mergedId (mkMerged docs idx score "semantic") = idx := hids idx hidx
      refine ⟨?_, ?_⟩
      · rw [h1, he, List.map_append]
        have hsing : List.map mergedId [mkMerged docs idx score "semantic"] = [idx] := by
          simp [hmk]
        rw [hsing, List.append_assoc, List.singleton_append]
      · intro j
        rw [h2 j]
        simp only [List.mem_cons]
        tauto

theorem mergeResults_eq (docs : List Document) (b v : List (ℕ × ℚ)) :
    mergeResults docs b v =
      (mergeVec docs v (mergeBm25 docs b [] []).1 (mergeBm25 docs b [] []).2).2 := rfl

theorem mergeResults_ids (docs : List Document) (b v : List (ℕ × ℚ))
    (hids : ∀ i, i < docs.length → (docs.getD i dummyDoc).id = i)
    (hb : ∀ p ∈ b, p.1 < docs.length) (hv : ∀ p ∈ v, p.1 < docs.length) :
    (mergeResults docs b v).map mergedId =
      emitNew [] (b.map Prod.fst ++ v.map Prod.fst) := by
  have hB := mergeBm25_spec docs hids b [] [] hb
  have hV := mergeVec_spec docs hids v (mergeBm25 docs b [] []).1
    (mergeBm25 docs b [] []).2 hv
  rw [mergeResults_eq, hV.1, hB.1]
  simp only [List.map_nil, List.nil_append]
  have hthread : emitNew (mergeBm25 docs b [] []).1 (v.map Prod.fst) =
      emitNew (threadSeen [] (b.map Prod.fst)) (v.map Prod.fst) := by
    apply emitNew_congr
    intro j
    rw [hB.2 j, threadSeen_mem (b.map Prod.fst) [] j]
  rw [hthread, ← emitNew_append]

theorem mergeResults_ids_nodup (docs : List Document) (b v : List (ℕ × ℚ))
    (hids : ∀ i, i < docs.length → (docs.getD i dummyDoc).id = i)
    (hb : ∀ p ∈ b, p.1 < docs.length) (hv : ∀ p ∈ v, p.1 < docs.length) :
    ((mergeResults docs b v).map mergedId).Nodup := by
  rw [mergeResults_ids docs b v hids hb hv]
  exact emitNew_nodup _ _

/-- C1: over a corpus satisfying the id == position invariant and ranked
input lists with in-range indices, the merged output never contains two
entries with the same doc id, and its id sequence is exactly the
first-occurrence emission order of the lexical list followed by the
semantic list — no re-sorting by any fused score. -/
theorem c1_merge_dedup_order (docs : List Document) (b v : List (ℕ × ℚ))
    (hids : ∀ i, i < docs.length → (docs.getD i dummyDoc).id = i)
    (hb : ∀ p ∈ b, p.1 < docs.length) (hv : ∀ p ∈ v, p.1 < docs.length) :
    ((mergeResults docs b v).map mergedId).Nodup ∧
    (mergeResults docs b v).map mergedId =
      emitNew [] (b.map Prod.fst ++ v.map Prod.fst) :=
  ⟨mergeResults_ids_nodup docs b v hids hb hv,
   mergeResults_ids docs b v hids hb hv⟩

theorem c1_witness :
    ((mergeResults docsW [(1, 0), (0, 0)] [(0, 1)]).map mergedId).Nodup :=
  (c1_merge_dedup_order docsW [(1, 0), (0, 0)] [(0, 1)]
    (by decide) (by decide) (by decide)).1

/-! ### Provenance tracking through the fusion passes -/

theorem mergeBm25_mem_mono (docs : List Document) :
    ∀ (b : List (ℕ × ℚ)) (seen : List ℕ) (acc : List MergedDoc)
      (e : MergedDoc), e ∈ acc → e ∈ (mergeBm25 docs b seen acc).2 := by
  intro b
  induction b with
  | nil => intro seen acc e he; exact he
  | cons p rest ih =>
    rcases p with ⟨idx, sc⟩
    intro seen acc e he
    simp only [mergeBm25]
    by_cases hx : idx ∈ seen
    · rw [if_pos hx]
      exact ih seen acc e he
    · rw [if_neg hx]
      exact ih _ _ e (List.mem_append_left _ he)

theorem mergeBm25_first_entry (docs : List Document) :
    ∀ (b : List (ℕ × ℚ)) (seen : List ℕ) (acc : List MergedDoc)
      (x : ℕ) (s : ℚ),
      x ∉ seen → b.find? (fun q => q.1 == x) = some (x, s) →
      mkMerged docs x s "bm25" ∈ (mergeBm25 docs b seen acc).2 := by
  intro b
  induction b with
  | nil =>
    intro seen acc x s _ hf
    exact absurd hf (by simp)
  | cons p rest ih =>
    rcases p with ⟨idx, sc⟩
    intro seen acc x s hxs hf
    by_cases hpx : idx = x
    · subst hpx
      rw [List.find?_cons_of_pos _ (by simp)] at hf
      have hsc : sc = s := by
        injection hf with h1
        injection h1 with h2 h3
      subst hsc
      simp only [mergeBm25]
      rw [if_neg hxs]
      exact mergeBm25_mem_mono docs rest _ _ _
        (List.mem_append_right _ (by simp))
    · rw [List.find?_cons_of_neg _ (by simp [hpx])] at hf
      simp only [mergeBm25]
      by_cases hx : idx ∈ seen
      · rw [if_pos hx]
        exact ih seen acc x s hxs hf
      · rw [if_neg hx]
        refine ih _ _ x s ?_ hf
        intro hc
        rcases List.mem_cons.mp hc with h | h
        · exact hpx h.symm
        · exact hxs h

theorem flipBoth_mem_ne (idx : ℕ) :
    ∀ (l : List MergedDoc) (e : MergedDoc),
      e ∈ l → e.doc.id ≠ idx → e ∈ flipBoth idx l := by
  intro l
  induction l with
  | nil =>
    intro e he _
    exact absurd he (by simp)
  | cons d rest ih =>
    intro e he hne
    simp only [flipBoth]
    by_cases hd : d.doc.id = idx
    · rw [if_pos hd]
      rcases List.mem_cons.mp he with rfl | h
      · exact absurd hd hne
      · exact List.mem_cons_of_mem _ h
    · rw [if_neg hd]
      rcases List.mem_cons.mp he with rfl | h
      · exact List.mem_cons_self _ _
      · exact List.mem_cons_of_mem _ (ih e h hne)

theorem flipBoth_flips (idx : ℕ) :
    ∀ (l : List MergedDoc) (e : MergedDoc),
      (l.map mergedId).Nodup → e ∈ l → e.doc.id = idx →
      (⟨e.doc, e.score, "both"⟩ : MergedDoc) ∈ flipBoth idx l := by
  intro l
  induction l with
  | nil =>
    intro e _ he _
    exact absurd he (by simp)
  | cons d rest ih =>
    intro e hnd he hid
    simp only [flipBoth]
    have hnd2 : (rest.map mergedId).Nodup := (List.nodup_cons.mp hnd).2
    have hdni : mergedId d ∉ rest.map mergedId := (List.nodup_cons.mp hnd).1
    by_cases hd : d.doc.id = idx
    · rw [if_pos hd]
      rcases List.mem_cons.mp he with rfl | h
      · exact List.mem_cons_self _ _
      · have hcontra : mergedId d ∈ rest.map mergedId := by
          have h1 : mergedId d = idx := hd
          have h2 : mergedId e = idx := hid
          rw [h1, ← h2]
          exact List.mem_map_of_mem mergedId h
        exact absurd hcontra hdni
    · rw [if_neg hd]
      rcases List.mem_cons.mp he with rfl | h
      · exact absurd hid hd
      · exact List.mem_cons_of_mem _ (ih e hnd2 h hid)

theorem mergeVec_tracks (docs : List Document)
    (hids : ∀ i, i < docs.length → (docs.getD i dummyDoc).id = i) :
    ∀ (v : List (ℕ × ℚ)) (seen : List ℕ) (acc : List MergedDoc)
      (e : MergedDoc) (x : ℕ),
      (∀ p ∈ v, p.1 < docs.length) →
      (∀ j, j ∈ seen ↔ j ∈ acc.map mergedId) →
      (acc.map mergedId).Nodup →
      e ∈ acc → mergedId e = x →
      ((x ∈ v.map Prod.fst →
          (⟨e.doc, e.score, "both"⟩ : MergedDoc) ∈ (mergeVec docs v seen acc).2) ∧
       (x ∉ v.map Prod.fst → e ∈ (mergeVec docs v seen acc).2)) := by
  intro v
  induction v with
  | nil =>
    intro seen acc e x _ _ _ he _
    refine ⟨?_, fun _ => he⟩
    intro hx
    exact absurd hx (by simp)
  | cons p rest ih =>
    rcases p with ⟨idx, sc⟩
    intro seen acc e x hv hinv hnd he hex
    have hrest : ∀ q ∈ rest, q.1 < docs.length :=
      fun q hq => hv q (List.mem_cons_of_mem _ hq)
    have hmc : ((idx, sc) :: rest).map Prod.fst = idx :: rest.map Prod.fst := rfl
    simp only [mergeVec]
    rw [hmc]
    by_cases hx : idx ∈ seen
    · rw [if_pos hx]
      have hmapflip : (flipBoth idx acc).map mergedId = acc.map mergedId :=
        flipBoth_map_id idx acc
      have hinv2 : ∀ j, j ∈ seen ↔ j ∈ (flipBoth idx acc).map mergedId := by
        intro j
        rw [hmapflip]
        exact hinv j
      have hnd2 : ((flipBoth idx acc).map mergedId).Nodup := by
        rw [hmapflip]
        exact hnd
      by_cases hix : idx = x
      · subst hix
        have he2 : (⟨e.doc, e.score, "both"⟩ : MergedDoc) ∈ flipBoth idx acc :=
          flipBoth_flips idx acc e hnd he hex
        have hex2 : mergedId (⟨e.doc, e.score, "both"⟩ : MergedDoc) = idx := hex
        have hrec := ih seen (flipBoth idx acc) ⟨e.doc, e.score, "both"⟩ idx
          hrest hinv2 hnd2 he2 hex2
        constructor
        · intro _
          by_cases hin : idx ∈ rest.map Prod.fst
          · exact hrec.1 hin
          · exact hrec.2 hin
        · intro hc
          exact absurd (List.mem_cons_self idx _) hc
      · have hne : e.doc.id ≠ idx := by
          have h1 : e.doc.id = x := hex
          rw [h1]
          exact fun hh => hix hh.symm
        have he2 : e ∈ flipBoth idx acc := flipBoth_mem_ne idx acc e he hne
        have hrec := ih seen (flipBoth idx acc) e x hrest hinv2 hnd2 he2 hex
        constructor
        · intro hmem
          rcases List.mem_cons.mp hmem with heq | hmem2
          · exact absurd heq.symm hix
          · exact hrec.1 hmem2
        · intro hnmem
          exact hrec.2 (fun hm => hnmem (List.mem_cons_of_mem _ hm))
    · rw [if_neg hx]
      have hxacc : x ∈ acc.map mergedId := hex ▸ List.mem_map_of_mem mergedId he
      have hix : idx ≠ x := fun hh => hx ((hinv idx).mpr (hh ▸ hxacc))
      have hidx : idx < docs.length := hv (idx, sc) (by simp)
      have hmk : mergedId (mkMerged docs idx sc "semantic") = idx := hids idx hidx
      have hinv2 : ∀ j, j ∈ idx :: seen ↔
          j ∈ (acc ++ [mkMerged docs idx sc "semantic"]).map mergedId := by
        intro j
        rw [List.map_append, List.mem_append]
        constructor
        · intro hj
          rcases List.mem_cons.mp hj with rfl | hs
          · exact Or.inr (by simp [hmk])
          · exact Or.inl ((hinv j).mp hs)
        · rintro (ha | hb)
          · exact List.mem_cons_of_mem _ ((hinv j).mpr ha)
          · have : j = idx := by
              simpa [hmk] using hb
            exact this ▸ List.mem_cons_self _ _
      have hnd2 : ((acc ++ [mkMerged docs idx sc "semantic"]).map mergedId).Nodup := by
        rw [List.map_append]
        refine List.Nodup.append hnd (by simp) ?_
        intro a ha hb
        have haidx : a = idx := by simpa [hmk] using hb
        exact hx ((hinv idx).mpr (haidx ▸ ha))
      have he2 : e ∈ acc ++ [mkMerged docs idx sc "semantic"] :=
        List.mem_append_left _ he
      have hrec := ih (idx :: seen) _ e x hrest hinv2 hnd2 he2 hex
      constructor
      · intro hmem
        rcases List.mem_cons.mp hmem with heq | hmem2
        · exact absurd heq.symm hix
        · exact hrec.1 hmem2
      · intro hnmem
        exact hrec.2 (fun hm => hnmem (List.mem_cons_of_mem _ hm))

/-- C3: a doc id appearing in both ranked lists yields exactly one merged
entry; that entry carries provenance "both" and the first-seen lexical
score (the semantic score is not recombined): the id occurs exactly once,
the both-provenance record with the first lexical score is in the output,
and every merged entry bearing this doc id is that record. -/
theorem c3_both_provenance (docs : List Document) (b v : List (ℕ × ℚ))
    (x : ℕ) (s : ℚ)
    (hids : ∀ i, i < docs.length → (docs.getD i dummyDoc).id = i)
    (hb : ∀ p ∈ b, p.1 < docs.length) (hv : ∀ p ∈ v, p.1 < docs.length)
    (hfind : b.find? (fun q => q.1 == x) = some (x, s))
    (hxv : x ∈ v.map Prod.fst) :
    ((mergeResults docs b v).map mergedId).count x = 1 ∧
      (⟨docs.getD x dummyDoc, s, "both"⟩ : MergedDoc) ∈ mergeResults docs b v ∧
      (∀ m ∈ mergeResults docs b v, m.doc.id = x →
        m = (⟨docs.getD x dummyDoc, s, "both"⟩ : MergedDoc)) := by
  have hxbmem : (x, s) ∈ b := List.mem_of_find?_eq_some hfind
  have hxb : x ∈ b.map Prod.fst := List.mem_map_of_mem Prod.fst hxbmem
  have hxlt : x < docs.length := hb (x, s) hxbmem
  have hB := mergeBm25_spec docs hids b [] [] hb
  have hentry : mkMerged docs x s "bm25" ∈ (mergeBm25 docs b [] []).2 :=
    mergeBm25_first_entry docs b [] [] x s (by simp) hfind
  have hinv : ∀ j, j ∈ (mergeBm25 docs b [] []).1 ↔
      j ∈ (mergeBm25 docs b [] []).2.map mergedId := by
    intro j
    rw [hB.2 j, hB.1]
    simp only [List.map_nil, List.nil_append]
    rw [emitNew_mem]
    simp
  have hnd1 : ((mergeBm25 docs b [] []).2.map mergedId).Nodup := by
    rw [hB.1]
    simp only [List.map_nil, List.nil_append]
    exact emitNew_nodup _ _
  have hexe : mergedId (mkMerged docs x s "bm25") = x := hids x hxlt
  have hV := mergeVec_tracks docs hids v (mergeBm25 docs b [] []).1
    (mergeBm25 docs b [] []).2 (mkMerged docs x s "bm25") x hv hinv hnd1
    hentry hexe
  have hboth : (⟨docs.getD x dummyDoc, s, "both"⟩ : MergedDoc) ∈
      mergeResults docs b v := by
    have hres := hV.1 hxv
    rw [mergeResults_eq]
    exact hres
  refine ⟨?_, hboth, ?_⟩
  · have hmem : x ∈ (mergeResults docs b v).map mergedId := by
      rw [mergeResults_ids docs b v hids hb hv, emitNew_mem]
      exact ⟨List.mem_append_left _ hxb, by simp⟩
    exact List.count_eq_one_of_mem
      (mergeResults_ids_nodup docs b v hids hb hv) hmem
  · intro m hm hmx
    refine List.inj_on_of_nodup_map
      (mergeResults_ids_nodup docs b v hids hb hv) hm hboth ?_
    have h1 : mergedId m = x := hmx
    have h2 : mergedId (⟨docs.getD x dummyDoc, s, "both"⟩ : MergedDoc) = x :=
      hids x hxlt
    rw [h1, h2]

theorem c3_witness :
    (⟨docsW.getD 0 dummyDoc, 0, "both"⟩ : MergedDoc) ∈
      mergeResults docsW [(1, 0), (0, 0)] [(0, 1)] :=
  (c3_both_provenance docsW [(1, 0), (0, 0)] [(0, 1)] 0 0
    (by decide) (by decide) (by decide) (by decide) (by decide)).2.1

end Strateg
